import Mathlib

/-!
Shallow embedding of the QMem quantum-memory register simulator
(`src/lib.rs` of the QMem repository).

The register holds a 64-bit classical word `state`, a 64-bit
`superposition` mask, a `HashMap<usize, usize>` of entangled pairs and a
`HashMap<usize, HashSet<usize>>` of entanglement groups.

Modelling decisions:
* `u64` words are `Nat`; `1 << k` is `1 <<< k` and Rust's `!(1 << k)`
  (bitwise complement inside 64 bits) is `U64MASK ^^^ (1 <<< k)`.  All
  theorems inspect bit positions `< 64`, where this agrees exactly with
  `u64` arithmetic.  (A shift by an amount `≥ 64` is an arithmetic
  overflow in the Rust source; it is never reached from in-range
  indices, and theorems about collapse propagation either restrict to
  bit positions `< 64` or assume in-range entanglement entries.)
* `HashMap` becomes an association list whose `insert` conses in front
  and whose lookup returns the first hit, reproducing overwrite
  semantics; `HashSet` becomes a duplicate-free list, all of whose uses
  in the source are order-insensitive.
* The single Bernoulli draw of `measure` is an explicit `Bool` argument
  threaded through the derived gates, so every theorem quantifies over
  all outcomes of the random draws.
-/

namespace QMemModel

/-- `u64::MAX`, i.e. `2^64 - 1`. -/
def U64MASK : Nat := 2 ^ 64 - 1

/-- The source's bit test `(x >> k) & 1 == 1`. -/
def getBit (x k : Nat) : Bool := (x >>> k) &&& 1 == 1

/-- The source's `x |= 1 << k`. -/
def setB (x k : Nat) : Nat := x ||| (1 <<< k)

/-- The source's `x &= !(1 << k)` on `u64`. -/
def clearB (x k : Nat) : Nat := x &&& (U64MASK ^^^ (1 <<< k))

/-- Write boolean `v` into bit `k`: `if v { x |= 1 << k } else { x &= !(1 << k) }`. -/
def writeBit (x k : Nat) (v : Bool) : Nat := if v then setB x k else clearB x k

/-- The `QMem` struct of `src/lib.rs`. -/
structure QMem where
  state : Nat
  superposition : Nat
  entangled : List (Nat × Nat)
  entangled_groups : List (Nat × List Nat)
deriving DecidableEq

/-- `QMem::new`: all 64 bits in superposition, no entanglement. -/
def QMem.new : QMem :=
  { state := 0
    superposition := U64MASK
    entangled := []
    entangled_groups := [] }

/-- `HashMap<usize, usize>` lookup (first hit wins, matching cons-insert). -/
def mapLookup : List (Nat × Nat) → Nat → Option Nat
  | [], _ => none
  | (k, v) :: rest, a => if k = a then some v else mapLookup rest a

/-- `HashMap<usize, HashSet<usize>>` lookup. -/
def groupsLookup : List (Nat × List Nat) → Nat → Option (List Nat)
  | [], _ => none
  | (k, g) :: rest, a => if k = a then some g else groupsLookup rest a

/-- `HashSet::insert` on the duplicate-free list model. -/
def setInsert (s : List Nat) (x : Nat) : List Nat :=
  if x ∈ s then s else s ++ [x]

/-- Insert every element of `xs` (the `for member in existing` loop). -/
def insertAll (s xs : List Nat) : List Nat := xs.foldl setInsert s

/-- The group-building loop of `QMem::entangle_group`: for each index,
insert it and every member of its pre-existing group. -/
def buildGroup (gs : List (Nat × List Nat)) (acc : List Nat) : List Nat → List Nat
  | [] => acc
  | i :: rest =>
    let acc1 := setInsert acc i
    let acc2 :=
      match groupsLookup gs i with
      | some ex => insertAll acc1 ex
      | none => acc1
    buildGroup gs acc2 rest

/-- `QMem::entangle_group`. -/
def entangle_group (q : QMem) (indices : List Nat) : QMem :=
  if indices.length < 2 then q
  else
    let group := buildGroup q.entangled_groups [] indices
    { q with entangled_groups :=
        group.foldl (fun m i => (i, group) :: m) q.entangled_groups }

/-- `QMem::entangle`: record a symmetric direct pairing (two inserts). -/
def entangle (q : QMem) (a b : Nat) : QMem :=
  if a ≠ b then
    { q with entangled := (b, a) :: (a, b) :: q.entangled }
  else q

/-- The group loop of `QMem::collapse_entangled_group`: collapse every
still-superposed member other than `index` to `v`. -/
def collapseMembers (index : Nat) (v : Bool) : List Nat → Nat → Nat → Nat × Nat
  | [], st, sp => (st, sp)
  | k :: rest, st, sp =>
    if k ≠ index ∧ getBit sp k = true then
      collapseMembers index v rest (writeBit st k v) (clearB sp k)
    else
      collapseMembers index v rest st sp

/-- The pair phase of `QMem::collapse_entangled_group`: after the group
loop has produced the word pair `s1 = (state, superposition)`, collapse
the direct pair partner of `index` if it is still in superposition. -/
def collapsePairPhase (q : QMem) (index : Nat) (v : Bool) (s1 : Nat × Nat) : QMem :=
  match mapLookup q.entangled index with
  | some p =>
    if getBit s1.2 p = true then
      { q with state := writeBit s1.1 p v, superposition := clearB s1.2 p }
    else
      { q with state := s1.1, superposition := s1.2 }
  | none => { q with state := s1.1, superposition := s1.2 }

/-- `QMem::collapse_entangled_group`: group members first, then the
direct pair partner, each only if still in superposition. -/
def collapse_entangled_group (q : QMem) (index : Nat) (v : Bool) : QMem :=
  collapsePairPhase q index v
    (match groupsLookup q.entangled_groups index with
     | some g => collapseMembers index v g q.state q.superposition
     | none => (q.state, q.superposition))

/-- `QMem::set_bit`: out-of-range guard, then either collapse (with
propagation) or enter superposition. -/
def set_bit (q : QMem) (index : Nat) (value : Option Bool) : QMem :=
  if 64 ≤ index then q
  else
    match value with
    | some v =>
      let q1 : QMem :=
        { q with superposition := clearB q.superposition index,
                 state := writeBit q.state index v }
      collapse_entangled_group q1 index v
    | none => { q with superposition := setB q.superposition index }

/-- `QMem::hadamard`. -/
def hadamard (q : QMem) (index : Nat) : QMem := set_bit q index none

/-- `QMem::measure`, the random draw made explicit as `r`. -/
def measure (r : Bool) (q : QMem) (index : Nat) : Bool × QMem :=
  if 64 ≤ index then (false, q)
  else if getBit q.superposition index = true then
    (r, set_bit q index (some r))
  else (getBit q.state index, q)

/-- `QMem::cnot`. -/
def cnot (r1 r2 : Bool) (q : QMem) (control target : Nat) : QMem :=
  let mc := measure r1 q control
  if mc.1 then
    let mt := measure r2 mc.2 target
    set_bit mt.2 target (some (!mt.1))
  else mc.2

/-- `QMem::pauli_x`. -/
def pauli_x (r : Bool) (q : QMem) (index : Nat) : QMem :=
  let m := measure r q index
  set_bit m.2 index (some (!m.1))

/-- `QMem::swap`. -/
def swap (r1 r2 : Bool) (q : QMem) (a b : Nat) : QMem :=
  if a = b then q
  else
    let ma := measure r1 q a
    let mb := measure r2 ma.2 b
    set_bit (set_bit mb.2 a (some mb.1)) b (some ma.1)

/-- `QMem::bells_test` (state effect and returned tuple; printing elided). -/
def bells_test (ra rb : Bool) (q : QMem) (a b : Nat) :
    (Bool × Bool × Bool) × QMem :=
  let ma := measure ra q a
  let mb := measure rb ma.2 b
  ((ma.1, mb.1, ma.1 == mb.1), mb.2)

/-- One public operation of the register, with its random draws. -/
inductive Op where
  | setBitOp (index : Nat) (value : Option Bool)
  | hadamardOp (index : Nat)
  | cnotOp (r1 r2 : Bool) (control target : Nat)
  | pauliXOp (r : Bool) (index : Nat)
  | swapOp (r1 r2 : Bool) (a b : Nat)
  | entangleOp (a b : Nat)
  | entangleGroupOp (indices : List Nat)
  | measureOp (r : Bool) (index : Nat)
  | bellsTestOp (ra rb : Bool) (a b : Nat)
deriving DecidableEq

/-- Apply one operation to the register. -/
def applyOp (q : QMem) : Op → QMem
  | .setBitOp i v => set_bit q i v
  | .hadamardOp i => hadamard q i
  | .cnotOp r1 r2 c t => cnot r1 r2 q c t
  | .pauliXOp r i => pauli_x r q i
  | .swapOp r1 r2 a b => swap r1 r2 q a b
  | .entangleOp a b => entangle q a b
  | .entangleGroupOp l => entangle_group q l
  | .measureOp r i => (measure r q i).2
  | .bellsTestOp ra rb a b => (bells_test ra rb q a b).2

/-- Run a sequence of operations. -/
def run (q : QMem) (ops : List Op) : QMem := ops.foldl applyOp q

/-- The qubit indices named by the `entangle` calls of a trace. -/
def entIndices : List Op → List Nat
  | [] => []
  | .entangleOp a b :: rest => a :: b :: entIndices rest
  | _ :: rest => entIndices rest

/-- Symmetry of the pairs map: `a ↦ b` implies `b ↦ a`. -/
def Symm (m : List (Nat × Nat)) : Prop :=
  ∀ a b, mapLookup m a = some b → mapLookup m b = some a

/-! ### Bit-level helper lemmas -/

theorem getBit_eq_testBit (x k : Nat) : getBit x k = x.testBit k := by
  unfold getBit Nat.testBit
  rw [Nat.and_one_is_mod, Nat.one_and_eq_mod_two]
  cases Nat.mod_two_eq_zero_or_one (x >>> k) with
  | inl h => rw [h]; rfl
  | inr h => rw [h]; rfl

theorem getBit_setB_self (x k : Nat) : getBit (setB x k) k = true := by
  simp [getBit_eq_testBit, setB, Nat.one_shiftLeft]

theorem getBit_setB_ne (x k j : Nat) (h : k ≠ j) : getBit (setB x k) j = getBit x j := by
  simp [getBit_eq_testBit, setB, Nat.one_shiftLeft, Nat.testBit_two_pow_of_ne h]

theorem testBit_U64MASK (j : Nat) (hj : j < 64) : Nat.testBit U64MASK j = true := by
  show Nat.testBit (2 ^ 64 - 1) j = true
  rw [Nat.testBit_two_pow_sub_one]
  simp [hj]

theorem getBit_clearB_self (x k : Nat) (hk : k < 64) : getBit (clearB x k) k = false := by
  rw [getBit_eq_testBit]
  unfold clearB
  rw [Nat.testBit_and, Nat.testBit_xor, Nat.one_shiftLeft, Nat.testBit_two_pow_self,
      testBit_U64MASK k hk]
  simp

theorem getBit_clearB_ne (x k j : Nat) (hj : j < 64) (h : k ≠ j) :
    getBit (clearB x k) j = getBit x j := by
  rw [getBit_eq_testBit, getBit_eq_testBit]
  unfold clearB
  rw [Nat.testBit_and, Nat.testBit_xor, Nat.one_shiftLeft, Nat.testBit_two_pow_of_ne h,
      testBit_U64MASK j hj]
  simp

theorem getBit_writeBit_self (x k : Nat) (v : Bool) (hk : k < 64) :
    getBit (writeBit x k v) k = v := by
  cases v <;> simp [writeBit, getBit_setB_self, getBit_clearB_self, hk]

theorem getBit_writeBit_ne (x k j : Nat) (v : Bool) (hj : j < 64) (h : k ≠ j) :
    getBit (writeBit x k v) j = getBit x j := by
  cases v <;> simp [writeBit, getBit_setB_ne _ _ _ h, getBit_clearB_ne _ _ _ hj h]

/-! ### Collapse-propagation helper lemmas -/

theorem collapseMembers_keeps_collapsed (index : Nat) (v : Bool) (members : List Nat)
    (st sp j : Nat) (hj : j < 64) (h : getBit sp j = false) :
    getBit (collapseMembers index v members st sp).1 j = getBit st j ∧
    getBit (collapseMembers index v members st sp).2 j = false := by
  induction members generalizing st sp with
  | nil => exact ⟨rfl, h⟩
  | cons k rest ih =>
    by_cases hkj : k = j
    · subst hkj
      have hno : ¬ (k ≠ index ∧ getBit sp k = true) := by
        rintro ⟨-, hh⟩; rw [h] at hh; exact Bool.false_ne_true hh
      simp only [collapseMembers]
      rw [if_neg hno]
      exact ih st sp h
    · simp only [collapseMembers]
      split
      · have h2 : getBit (clearB sp k) j = false := by
          rw [getBit_clearB_ne _ _ _ hj hkj, h]
        obtain ⟨h1, h2'⟩ := ih (writeBit st k v) (clearB sp k) h2
        exact ⟨h1.trans (getBit_writeBit_ne _ _ _ _ hj hkj), h2'⟩
      · exact ih st sp h

theorem collapseMembers_keeps_nonmember (index : Nat) (v : Bool) (members : List Nat)
    (st sp j : Nat) (hj : j < 64) (h : ∀ k ∈ members, k ≠ j) :
    getBit (collapseMembers index v members st sp).1 j = getBit st j ∧
    getBit (collapseMembers index v members st sp).2 j = getBit sp j := by
  induction members generalizing st sp with
  | nil => exact ⟨rfl, rfl⟩
  | cons k rest ih =>
    have hkj : k ≠ j := h k (List.mem_cons_self k rest)
    have hrest : ∀ k' ∈ rest, k' ≠ j := fun k' hk' => h k' (List.mem_cons_of_mem _ hk')
    simp only [collapseMembers]
    split
    · obtain ⟨h1, h2⟩ := ih (writeBit st k v) (clearB sp k) hrest
      exact ⟨h1.trans (getBit_writeBit_ne _ _ _ _ hj hkj),
             h2.trans (getBit_clearB_ne _ _ _ hj hkj)⟩
    · exact ih st sp hrest

theorem collapseMembers_keeps_index (index : Nat) (v : Bool) (members : List Nat)
    (st sp : Nat) (hi : index < 64) :
    getBit (collapseMembers index v members st sp).1 index = getBit st index ∧
    getBit (collapseMembers index v members st sp).2 index = getBit sp index := by
  induction members generalizing st sp with
  | nil => exact ⟨rfl, rfl⟩
  | cons k rest ih =>
    simp only [collapseMembers]
    split
    · rename_i hcond
      obtain ⟨h1, h2⟩ := ih (writeBit st k v) (clearB sp k)
      exact ⟨h1.trans (getBit_writeBit_ne _ _ _ _ hi hcond.1),
             h2.trans (getBit_clearB_ne _ _ _ hi hcond.1)⟩
    · exact ih st sp

theorem collapseMembers_forces (index : Nat) (v : Bool) (members : List Nat)
    (st sp b : Nat) (hb : b < 64) :
    (getBit (collapseMembers index v members st sp).1 b = getBit st b ∧
     getBit (collapseMembers index v members st sp).2 b = getBit sp b) ∨
    (getBit (collapseMembers index v members st sp).1 b = v ∧
     getBit (collapseMembers index v members st sp).2 b = false) := by
  induction members generalizing st sp with
  | nil => exact Or.inl ⟨rfl, rfl⟩
  | cons k rest ih =>
    simp only [collapseMembers]
    split
    · by_cases hkb : k = b
      · subst hkb
        rcases ih (writeBit st k v) (clearB sp k) with ⟨h1, h2⟩ | h
        · exact Or.inr ⟨h1.trans (getBit_writeBit_self _ _ _ hb),
                        h2.trans (getBit_clearB_self _ _ hb)⟩
        · exact Or.inr h
      · rcases ih (writeBit st k v) (clearB sp k) with ⟨h1, h2⟩ | h
        · exact Or.inl ⟨h1.trans (getBit_writeBit_ne _ _ _ _ hb hkb),
                        h2.trans (getBit_clearB_ne _ _ _ hb hkb)⟩
        · exact Or.inr h
    · exact ih st sp

theorem collapsePairPhase_keeps_out (q : QMem) (index : Nat) (v : Bool) (s1 : Nat × Nat)
    (j : Nat) (hj : j < 64)
    (h : mapLookup q.entangled index = some j → getBit s1.2 j = false) :
    getBit (collapsePairPhase q index v s1).state j = getBit s1.1 j ∧
    getBit (collapsePairPhase q index v s1).superposition j = getBit s1.2 j := by
  unfold collapsePairPhase
  cases hp : mapLookup q.entangled index with
  | none => exact ⟨rfl, rfl⟩
  | some p =>
    dsimp only
    by_cases hpj : p = j
    · subst hpj
      rw [if_neg (by simp [h hp])]
      exact ⟨rfl, rfl⟩
    · by_cases hif : getBit s1.2 p = true
      · rw [if_pos hif]
        exact ⟨getBit_writeBit_ne _ _ _ _ hj hpj, getBit_clearB_ne _ _ _ hj hpj⟩
      · rw [if_neg hif]
        exact ⟨rfl, rfl⟩

theorem collapsePairPhase_writes (q : QMem) (index : Nat) (v : Bool) (s1 : Nat × Nat)
    (p : Nat) (hp : mapLookup q.entangled index = some p)
    (hps : getBit s1.2 p = true) (hplt : p < 64) :
    getBit (collapsePairPhase q index v s1).state p = v ∧
    getBit (collapsePairPhase q index v s1).superposition p = false := by
  unfold collapsePairPhase
  rw [hp]
  simp only [hps, if_pos rfl]
  exact ⟨getBit_writeBit_self _ _ _ hplt, getBit_clearB_self _ _ hplt⟩

theorem collapse_keeps_index (q : QMem) (index : Nat) (v : Bool) (hi : index < 64)
    (h : getBit q.superposition index = false) :
    getBit (collapse_entangled_group q index v).superposition index = false ∧
    getBit (collapse_entangled_group q index v).state index = getBit q.state index := by
  unfold collapse_entangled_group
  cases hg : groupsLookup q.entangled_groups index with
  | none =>
    dsimp only
    have hout := collapsePairPhase_keeps_out q index v (q.state, q.superposition) index hi
      (fun _ => h)
    exact ⟨hout.2.trans h, hout.1⟩
  | some g =>
    dsimp only
    obtain ⟨h1, h2⟩ := collapseMembers_keeps_index index v g q.state q.superposition hi
    have hout := collapsePairPhase_keeps_out q index v
      (collapseMembers index v g q.state q.superposition) index hi (fun _ => h2.trans h)
    exact ⟨(hout.2.trans h2).trans h, hout.1.trans h1⟩

theorem set_bit_some_self (q : QMem) (i : Nat) (v : Bool) (hi : i < 64) :
    getBit (set_bit q i (some v)).superposition i = false ∧
    getBit (set_bit q i (some v)).state i = v := by
  have hni : ¬ 64 ≤ i := by omega
  unfold set_bit
  rw [if_neg hni]
  dsimp only
  obtain ⟨h1, h2⟩ := collapse_keeps_index
    { q with superposition := clearB q.superposition i, state := writeBit q.state i v }
    i v hi (getBit_clearB_self _ _ hi)
  exact ⟨h1, h2.trans (getBit_writeBit_self _ _ _ hi)⟩

theorem measure_not_superposed (r : Bool) (q : QMem) (i : Nat) (hi : i < 64)
    (h : getBit q.superposition i = false) :
    measure r q i = (getBit q.state i, q) := by
  unfold measure
  rw [if_neg (by omega), if_neg (by rw [h]; exact Bool.false_ne_true)]

theorem collapse_forces_pair (q : QMem) (index : Nat) (v : Bool) (p : Nat)
    (hp : mapLookup q.entangled index = some p) (hplt : p < 64)
    (hsp : getBit q.superposition p = true) :
    getBit (collapse_entangled_group q index v).superposition p = false ∧
    getBit (collapse_entangled_group q index v).state p = v := by
  unfold collapse_entangled_group
  cases hg : groupsLookup q.entangled_groups index with
  | none =>
    dsimp only
    have hw := collapsePairPhase_writes q index v (q.state, q.superposition) p hp hsp hplt
    exact ⟨hw.2, hw.1⟩
  | some g =>
    dsimp only
    rcases collapseMembers_forces index v g q.state q.superposition p hplt with
      ⟨h1, h2⟩ | ⟨h1, h2⟩
    · have hw := collapsePairPhase_writes q index v
        (collapseMembers index v g q.state q.superposition) p hp (h2.trans hsp) hplt
      exact ⟨hw.2, hw.1⟩
    · have hout := collapsePairPhase_keeps_out q index v
        (collapseMembers index v g q.state q.superposition) p hplt (fun _ => h2)
      exact ⟨hout.2.trans h2, hout.1.trans h1⟩

/-! ### Membership lemmas for `entangle_group` -/

theorem mem_setInsert (s : List Nat) (a x : Nat) :
    x ∈ setInsert s a ↔ x ∈ s ∨ x = a := by
  unfold setInsert
  by_cases h : a ∈ s
  · rw [if_pos h]
    constructor
    · exact Or.inl
    · rintro (hx | rfl)
      · exact hx
      · exact h
  · rw [if_neg h]
    simp

theorem mem_insertAll (s xs : List Nat) (x : Nat) :
    x ∈ insertAll s xs ↔ x ∈ s ∨ x ∈ xs := by
  induction xs generalizing s with
  | nil => simp [insertAll]
  | cons y ys ih =>
    show x ∈ insertAll (setInsert s y) ys ↔ _
    rw [ih (setInsert s y), mem_setInsert]
    simp only [List.mem_cons]
    tauto

theorem mem_buildGroup (gs : List (Nat × List Nat)) (l : List Nat) (acc : List Nat) (x : Nat) :
    x ∈ buildGroup gs acc l ↔
      x ∈ acc ∨ x ∈ l ∨ ∃ i, i ∈ l ∧ ∃ g, groupsLookup gs i = some g ∧ x ∈ g := by
  induction l generalizing acc with
  | nil => simp [buildGroup]
  | cons i rest ih =>
    unfold buildGroup
    cases hg : groupsLookup gs i with
    | none =>
      dsimp only
      rw [ih, mem_setInsert]
      constructor
      · rintro ((h | rfl) | h | ⟨i', h1, h2⟩)
        · exact Or.inl h
        · exact Or.inr (Or.inl (List.mem_cons_self _ _))
        · exact Or.inr (Or.inl (List.mem_cons_of_mem _ h))
        · exact Or.inr (Or.inr ⟨i', List.mem_cons_of_mem _ h1, h2⟩)
      · rintro (h | h | ⟨i', h1, g, hgl, hx⟩)
        · exact Or.inl (Or.inl h)
        · rcases List.mem_cons.mp h with rfl | h
          · exact Or.inl (Or.inr rfl)
          · exact Or.inr (Or.inl h)
        · rcases List.mem_cons.mp h1 with rfl | h1
          · rw [hg] at hgl
            cases hgl
          · exact Or.inr (Or.inr ⟨i', h1, g, hgl, hx⟩)
    | some ex =>
      dsimp only
      rw [ih, mem_insertAll, mem_setInsert]
      constructor
      · rintro (((h | rfl) | h) | h | ⟨i', h1, h2⟩)
        · exact Or.inl h
        · exact Or.inr (Or.inl (List.mem_cons_self _ _))
        · exact Or.inr (Or.inr ⟨i, List.mem_cons_self _ _, ex, hg, h⟩)
        · exact Or.inr (Or.inl (List.mem_cons_of_mem _ h))
        · exact Or.inr (Or.inr ⟨i', List.mem_cons_of_mem _ h1, h2⟩)
      · rintro (h | h | ⟨i', h1, g, hgl, hx⟩)
        · exact Or.inl (Or.inl (Or.inl h))
        · rcases List.mem_cons.mp h with rfl | h
          · exact Or.inl (Or.inl (Or.inr rfl))
          · exact Or.inr (Or.inl h)
        · rcases List.mem_cons.mp h1 with rfl | h1
          · rw [hg] at hgl
            obtain rfl : ex = g := Option.some.inj hgl
            exact Or.inl (Or.inr hx)
          · exact Or.inr (Or.inr ⟨i', h1, g, hgl, hx⟩)

theorem groupsLookup_pushAll (g : List Nat) (l : List Nat) (gs : List (Nat × List Nat))
    (a : Nat) :
    groupsLookup (l.foldl (fun m i => (i, g) :: m) gs) a
      = if a ∈ l then some g else groupsLookup gs a := by
  induction l generalizing gs with
  | nil => simp
  | cons i rest ih =>
    simp only [List.foldl_cons]
    rw [ih ((i, g) :: gs)]
    by_cases hmem : a ∈ rest
    · rw [if_pos hmem, if_pos (List.mem_cons_of_mem _ hmem)]
    · rw [if_neg hmem]
      show (if i = a then some g else groupsLookup gs a) = _
      by_cases hia : i = a
      · rw [if_pos hia, if_pos (by subst hia; exact List.mem_cons_self _ _)]
      · rw [if_neg hia, if_neg (fun hmm => by
          rcases List.mem_cons.mp hmm with rfl | hmm
          · exact hia rfl
          · exact hmem hmm)]

theorem set_bit_keeps_nonentangled (q : QMem) (index : Nat) (v : Bool) (j : Nat)
    (hj : j < 64) (hij : j ≠ index)
    (hpair : ∀ p, mapLookup q.entangled index = some p → p ≠ j)
    (hgrp : ∀ g, groupsLookup q.entangled_groups index = some g → ∀ k, k ∈ g → k ≠ j) :
    getBit (set_bit q index (some v)).state j = getBit q.state j ∧
    getBit (set_bit q index (some v)).superposition j = getBit q.superposition j := by
  by_cases hrange : 64 ≤ index
  · unfold set_bit
    rw [if_pos hrange]
    exact ⟨rfl, rfl⟩
  · unfold set_bit
    rw [if_neg hrange]
    dsimp only
    have hsp1 : getBit (clearB q.superposition index) j = getBit q.superposition j :=
      getBit_clearB_ne _ _ _ hj (Ne.symm hij)
    have hst1 : getBit (writeBit q.state index v) j = getBit q.state j :=
      getBit_writeBit_ne _ _ _ _ hj (Ne.symm hij)
    unfold collapse_entangled_group
    cases hg : groupsLookup q.entangled_groups index with
    | none =>
      dsimp only
      have hout := collapsePairPhase_keeps_out
        { q with superposition := clearB q.superposition index,
                 state := writeBit q.state index v }
        index v (writeBit q.state index v, clearB q.superposition index)
        j hj (fun hp => absurd rfl (hpair j hp))
      exact ⟨hout.1.trans hst1, hout.2.trans hsp1⟩
    | some g =>
      dsimp only
      obtain ⟨h1, h2⟩ := collapseMembers_keeps_nonmember index v g
        (writeBit q.state index v) (clearB q.superposition index) j hj (hgrp g hg)
      have hout := collapsePairPhase_keeps_out
        { q with superposition := clearB q.superposition index,
                 state := writeBit q.state index v }
        index v
        (collapseMembers index v g (writeBit q.state index v) (clearB q.superposition index))
        j hj (fun hp => absurd rfl (hpair j hp))
      exact ⟨(hout.1.trans h1).trans hst1, (hout.2.trans h2).trans hsp1⟩

/-! ### Preservation of the pairs map by every operation except `entangle` -/

theorem entangled_collapsePairPhase (q : QMem) (index : Nat) (v : Bool) (s1 : Nat × Nat) :
    (collapsePairPhase q index v s1).entangled = q.entangled := by
  unfold collapsePairPhase
  cases mapLookup q.entangled index with
  | none => rfl
  | some p =>
    dsimp only
    split <;> rfl

theorem entangled_collapse (q : QMem) (index : Nat) (v : Bool) :
    (collapse_entangled_group q index v).entangled = q.entangled :=
  entangled_collapsePairPhase q index v _

theorem entangled_set_bit (q : QMem) (i : Nat) (v : Option Bool) :
    (set_bit q i v).entangled = q.entangled := by
  unfold set_bit
  split
  · rfl
  · cases v with
    | some b => exact entangled_collapse _ i b
    | none => rfl

theorem entangled_measure (r : Bool) (q : QMem) (i : Nat) :
    (measure r q i).2.entangled = q.entangled := by
  unfold measure
  split
  · rfl
  · split
    · exact entangled_set_bit q i (some r)
    · rfl

theorem entangled_hadamard (q : QMem) (i : Nat) :
    (hadamard q i).entangled = q.entangled :=
  entangled_set_bit q i none

theorem entangled_pauli_x (r : Bool) (q : QMem) (i : Nat) :
    (pauli_x r q i).entangled = q.entangled := by
  show (set_bit (measure r q i).2 i (some (!(measure r q i).1))).entangled = q.entangled
  rw [entangled_set_bit, entangled_measure]

theorem entangled_cnot (r1 r2 : Bool) (q : QMem) (c t : Nat) :
    (cnot r1 r2 q c t).entangled = q.entangled := by
  show (if (measure r1 q c).1 then
          set_bit (measure r2 (measure r1 q c).2 t).2 t
            (some (!(measure r2 (measure r1 q c).2 t).1))
        else (measure r1 q c).2).entangled = q.entangled
  split
  · rw [entangled_set_bit, entangled_measure, entangled_measure]
  · rw [entangled_measure]

theorem entangled_swap (r1 r2 : Bool) (q : QMem) (a b : Nat) :
    (swap r1 r2 q a b).entangled = q.entangled := by
  unfold swap
  split
  · rfl
  · dsimp only
    rw [entangled_set_bit, entangled_set_bit, entangled_measure, entangled_measure]

theorem entangled_entangle_group (q : QMem) (l : List Nat) :
    (entangle_group q l).entangled = q.entangled := by
  unfold entangle_group
  split
  · rfl
  · rfl

theorem entangled_bells_test (ra rb : Bool) (q : QMem) (a b : Nat) :
    (bells_test ra rb q a b).2.entangled = q.entangled := by
  show (measure rb (measure ra q a).2 b).2.entangled = q.entangled
  rw [entangled_measure, entangled_measure]

/-- Inserting a fresh symmetric pair keeps the pairs map symmetric. -/
theorem symm_entangle_insert (E : List (Nat × Nat)) (a b : Nat) (hab : a ≠ b)
    (hS : Symm E) (hA : mapLookup E a = none) (hB : mapLookup E b = none) :
    Symm ((b, a) :: (a, b) :: E) := by
  intro x y hxy
  have lb : mapLookup ((b, a) :: (a, b) :: E) b = some a := by
    show (if b = b then some a else _) = some a
    rw [if_pos rfl]
  have la : mapLookup ((b, a) :: (a, b) :: E) a = some b := by
    show (if b = a then some a else if a = a then some b else mapLookup E a) = some b
    rw [if_neg (Ne.symm hab), if_pos rfl]
  by_cases hxb : x = b
  · subst hxb
    rw [lb] at hxy
    obtain rfl : a = y := Option.some.inj hxy
    exact la
  · by_cases hxa : x = a
    · subst hxa
      rw [la] at hxy
      obtain rfl : b = y := Option.some.inj hxy
      exact lb
    · have hxE : mapLookup E x = some y := by
        have hstep : mapLookup ((b, a) :: (a, b) :: E) x = mapLookup E x := by
          show (if b = x then some a else if a = x then some b else mapLookup E x) = _
          rw [if_neg (fun hh => hxb hh.symm), if_neg (fun hh => hxa hh.symm)]
        rw [hstep] at hxy
        exact hxy
      have hyE : mapLookup E y = some x := hS x y hxE
      have hya : y ≠ a := fun hh => by rw [hh, hA] at hyE; cases hyE
      have hyb : y ≠ b := fun hh => by rw [hh, hB] at hyE; cases hyE
      calc mapLookup ((b, a) :: (a, b) :: E) y = mapLookup E y := by
            show (if b = y then some a else if a = y then some b else mapLookup E y) = _
            rw [if_neg (fun hh => hyb hh.symm), if_neg (fun hh => hya hh.symm)]
        _ = some x := hyE

theorem symm_run_aux (ops : List Op) : ∀ q : QMem,
    Symm q.entangled →
    (entIndices ops).Nodup →
    (∀ k, k ∈ entIndices ops → mapLookup q.entangled k = none) →
    Symm (run q ops).entangled := by
  induction ops with
  | nil =>
    intro q hS _ _
    exact hS
  | cons op rest ih =>
    intro q hS hnd hnone
    show Symm (run (applyOp q op) rest).entangled
    cases op with
    | entangleOp a b =>
      obtain ⟨hanib, hnd2⟩ := List.nodup_cons.mp hnd
      obtain ⟨hbni, hnd3⟩ := List.nodup_cons.mp hnd2
      have hab : a ≠ b := fun hh => hanib (hh ▸ List.mem_cons_self b _)
      have hE : (entangle q a b).entangled = (b, a) :: (a, b) :: q.entangled := by
        unfold entangle
        rw [if_pos hab]
      refine ih (entangle q a b) ?_ hnd3 ?_
      · rw [hE]
        exact symm_entangle_insert q.entangled a b hab hS
          (hnone a (List.mem_cons_self _ _))
          (hnone b (List.mem_cons_of_mem _ (List.mem_cons_self _ _)))
      · intro k hk
        have hka : k ≠ a := fun hh => hanib (List.mem_cons_of_mem _ (hh ▸ hk))
        have hkb : k ≠ b := fun hh => hbni (hh ▸ hk)
        rw [hE]
        show (if b = k then some a else if a = k then some b
                else mapLookup q.entangled k) = none
        rw [if_neg (fun hh => hkb hh.symm), if_neg (fun hh => hka hh.symm)]
        exact hnone k (List.mem_cons_of_mem _ (List.mem_cons_of_mem _ hk))
    | setBitOp i v =>
      have hpres : (applyOp q (Op.setBitOp i v)).entangled = q.entangled :=
        entangled_set_bit q i v
      exact ih _ (hpres.symm ▸ hS) hnd (fun k hk => hpres.symm ▸ hnone k hk)
    | hadamardOp i =>
      have hpres : (applyOp q (Op.hadamardOp i)).entangled = q.entangled :=
        entangled_hadamard q i
      exact ih _ (hpres.symm ▸ hS) hnd (fun k hk => hpres.symm ▸ hnone k hk)
    | cnotOp r1 r2 c t =>
      have hpres : (applyOp q (Op.cnotOp r1 r2 c t)).entangled = q.entangled :=
        entangled_cnot r1 r2 q c t
      exact ih _ (hpres.symm ▸ hS) hnd (fun k hk => hpres.symm ▸ hnone k hk)
    | pauliXOp r i =>
      have hpres : (applyOp q (Op.pauliXOp r i)).entangled = q.entangled :=
        entangled_pauli_x r q i
      exact ih _ (hpres.symm ▸ hS) hnd (fun k hk => hpres.symm ▸ hnone k hk)
    | swapOp r1 r2 a b =>
      have hpres : (applyOp q (Op.swapOp r1 r2 a b)).entangled = q.entangled :=
        entangled_swap r1 r2 q a b
      exact ih _ (hpres.symm ▸ hS) hnd (fun k hk => hpres.symm ▸ hnone k hk)
    | entangleGroupOp l =>
      have hpres : (applyOp q (Op.entangleGroupOp l)).entangled = q.entangled :=
        entangled_entangle_group q l
      exact ih _ (hpres.symm ▸ hS) hnd (fun k hk => hpres.symm ▸ hnone k hk)
    | measureOp r i =>
      have hpres : (applyOp q (Op.measureOp r i)).entangled = q.entangled :=
        entangled_measure r q i
      exact ih _ (hpres.symm ▸ hS) hnd (fun k hk => hpres.symm ▸ hnone k hk)
    | bellsTestOp ra rb a b =>
      have hpres : (applyOp q (Op.bellsTestOp ra rb a b)).entangled = q.entangled :=
        entangled_bells_test ra rb q a b
      exact ih _ (hpres.symm ▸ hS) hnd (fun k hk => hpres.symm ▸ hnone k hk)

/-! ### Claim theorems -/

/-- C6: a register produced by `QMem::new` has all 64 qubits in
superposition (mask all-ones, `u64::MAX = 2^64 - 1`), classical state
all zero, and empty pair and group entanglement relations. -/
theorem new_register_spec :
    QMem.new.state = 0 ∧ QMem.new.superposition = 2 ^ 64 - 1 ∧
    QMem.new.entangled = [] ∧ QMem.new.entangled_groups = [] ∧
    ((List.range 64).all fun i => getBit QMem.new.superposition i) = true := by
  refine ⟨rfl, rfl, rfl, rfl, ?_⟩
  decide

/-- C10: for every in-range index, `set_bit(index, None)` (and therefore
`hadamard(index)`) only sets the superposition bit at `index`: the
classical state word, all other superposition bits, and both
entanglement maps are unchanged, and no collapse propagation occurs. -/
theorem set_bit_none_superposition_only (q : QMem) (i : Nat) (hi : i < 64) :
    (set_bit q i none).state = q.state ∧
    (set_bit q i none).entangled = q.entangled ∧
    (set_bit q i none).entangled_groups = q.entangled_groups ∧
    getBit (set_bit q i none).superposition i = true ∧
    (∀ j, j ≠ i → getBit (set_bit q i none).superposition j = getBit q.superposition j) ∧
    hadamard q i = set_bit q i none := by
  have hni : ¬ 64 ≤ i := by omega
  have hrepr : set_bit q i none = { q with superposition := setB q.superposition i } := by
    unfold set_bit
    rw [if_neg hni]
  refine ⟨by rw [hrepr], by rw [hrepr], by rw [hrepr],
          by rw [hrepr]; exact getBit_setB_self _ _,
          fun j hji => by rw [hrepr]; exact getBit_setB_ne _ _ _ (fun hh => hji hh.symm),
          rfl⟩

/-- Witness for C10 at a concrete input: collapse qubit 3 to 1, then put
it back into superposition; the stale classical bit is untouched. -/
theorem set_bit_none_superposition_only_witness :
    (3 : Nat) < 64 ∧
    (set_bit (set_bit QMem.new 3 (some true)) 3 none).state
      = (set_bit QMem.new 3 (some true)).state ∧
    getBit (set_bit (set_bit QMem.new 3 (some true)) 3 none).superposition 3 = true :=
  ⟨by omega,
   (set_bit_none_superposition_only (set_bit QMem.new 3 (some true)) 3 (by omega)).1,
   (set_bit_none_superposition_only (set_bit QMem.new 3 (some true)) 3 (by omega)).2.2.2.1⟩

/-- C5: measuring an in-range qubit whose superposition bit is 0 returns
the current classical bit, mutates nothing, and is independent of the
random draw; hence repeated measurement returns the same value. -/
theorem measure_collapsed_pure (q : QMem) (r : Bool) (i : Nat) (hi : i < 64)
    (h : getBit q.superposition i = false) :
    measure r q i = (getBit q.state i, q) ∧
    (∀ s : Bool, measure s (measure r q i).2 i = (getBit q.state i, q)) := by
  have h1 := measure_not_superposed r q i hi h
  refine ⟨h1, fun s => ?_⟩
  rw [h1]
  exact measure_not_superposed s q i hi h

/-- Witness for C5: qubit 0 collapsed to 1, then measured with draw
`false`; the draw is ignored and the stored 1 is returned. -/
theorem measure_collapsed_pure_witness :
    (0 : Nat) < 64 ∧
    getBit (set_bit QMem.new 0 (some true)).superposition 0 = false ∧
    measure false (set_bit QMem.new 0 (some true)) 0
      = (getBit (set_bit QMem.new 0 (some true)).state 0, set_bit QMem.new 0 (some true)) :=
  ⟨by omega, by decide,
   (measure_collapsed_pure (set_bit QMem.new 0 (some true)) false 0 (by omega) (by decide)).1⟩

/-- C8: for every in-range index and every outcome of the draws, two
successive `pauli_x` calls leave the qubit collapsed with classical bit
equal to the value the first internal measurement returned. -/
theorem pauli_x_twice_collapses (q : QMem) (i : Nat) (r1 r2 : Bool) (hi : i < 64) :
    getBit (pauli_x r2 (pauli_x r1 q i) i).superposition i = false ∧
    getBit (pauli_x r2 (pauli_x r1 q i) i).state i = (measure r1 q i).1 := by
  obtain ⟨hs, hv⟩ := set_bit_some_self (measure r1 q i).2 i (!(measure r1 q i).1) hi
  have hA : pauli_x r1 q i = set_bit (measure r1 q i).2 i (some (!(measure r1 q i).1)) := rfl
  have hm2 : measure r2 (pauli_x r1 q i) i
      = (getBit (pauli_x r1 q i).state i, pauli_x r1 q i) :=
    measure_not_superposed r2 _ i hi (by rw [hA]; exact hs)
  have hbit : getBit (pauli_x r1 q i).state i = !(measure r1 q i).1 := by rw [hA]; exact hv
  have hP2 : pauli_x r2 (pauli_x r1 q i) i
      = set_bit (pauli_x r1 q i) i (some (!(getBit (pauli_x r1 q i).state i))) := by
    show set_bit (measure r2 (pauli_x r1 q i) i).2 i
        (some (!(measure r2 (pauli_x r1 q i) i).1)) = _
    rw [hm2]
  rw [hP2, hbit, Bool.not_not]
  exact set_bit_some_self (pauli_x r1 q i) i (measure r1 q i).1 hi

/-- Witness for C8 at qubit 0 of a fresh register with draws 1 then 0. -/
theorem pauli_x_twice_collapses_witness :
    (0 : Nat) < 64 ∧
    (getBit (pauli_x false (pauli_x true QMem.new 0) 0).superposition 0 = false ∧
     getBit (pauli_x false (pauli_x true QMem.new 0) 0).state 0 = (measure true QMem.new 0).1) :=
  ⟨by omega, pauli_x_twice_collapses QMem.new 0 true false (by omega)⟩

/-- C9: collapse propagation never overwrites an already-collapsed
qubit: during `set_bit(index, Some(v))`, any other qubit `j` whose
superposition bit is already 0 (in particular any collapsed pair
partner or group member of `index`) keeps its classical bit, even when
it differs from `v`, and stays collapsed. -/
theorem set_bit_keeps_collapsed_partners (q : QMem) (index : Nat) (v : Bool) (j : Nat)
    (hj : j < 64) (hij : j ≠ index) (h : getBit q.superposition j = false) :
    getBit (set_bit q index (some v)).state j = getBit q.state j ∧
    getBit (set_bit q index (some v)).superposition j = false := by
  by_cases hrange : 64 ≤ index
  · unfold set_bit
    rw [if_pos hrange]
    exact ⟨rfl, h⟩
  · unfold set_bit
    rw [if_neg hrange]
    dsimp only
    have hsp1 : getBit (clearB q.superposition index) j = false := by
      rw [getBit_clearB_ne _ _ _ hj (Ne.symm hij), h]
    have hst1 : getBit (writeBit q.state index v) j = getBit q.state j :=
      getBit_writeBit_ne _ _ _ _ hj (Ne.symm hij)
    unfold collapse_entangled_group
    cases hg : groupsLookup q.entangled_groups index with
    | none =>
      dsimp only
      have hout := collapsePairPhase_keeps_out
        { q with superposition := clearB q.superposition index,
                 state := writeBit q.state index v }
        index v (writeBit q.state index v, clearB q.superposition index)
        j hj (fun _ => hsp1)
      exact ⟨hout.1.trans hst1, hout.2.trans hsp1⟩
    | some g =>
      dsimp only
      obtain ⟨h1, h2⟩ := collapseMembers_keeps_collapsed index v g
        (writeBit q.state index v) (clearB q.superposition index) j hj hsp1
      have hout := collapsePairPhase_keeps_out
        { q with superposition := clearB q.superposition index,
                 state := writeBit q.state index v }
        index v
        (collapseMembers index v g (writeBit q.state index v) (clearB q.superposition index))
        j hj (fun _ => h2)
      exact ⟨(hout.1.trans h1).trans hst1, hout.2.trans h2⟩

/-- C3 counterexample: the pairs-map symmetry is not an invariant of
all reachable states.  From a fresh register, `entangle(0,1)` then
`entangle(1,2)` overwrites qubit 1's partner: 0 still maps to 1, but 1
now maps to 2, so the map is not symmetric. -/
theorem entangled_symm_counterexample :
    ¬ Symm (run QMem.new [Op.entangleOp 0 1, Op.entangleOp 1 2]).entangled := by
  intro h
  have h01 : mapLookup (run QMem.new [Op.entangleOp 0 1, Op.entangleOp 1 2]).entangled 0
      = some 1 := by decide
  exact absurd (h 0 1 h01) (by decide)

/-- C3 amended: every qubit has at most one direct partner (the pairs
relation is a map), and the map is symmetric in every state reachable
from `new()` by an operation sequence whose `entangle` calls use
pairwise-distinct qubit indices; a later `entangle` reusing a qubit of
an earlier pair overwrites one direction and can break symmetry. -/
theorem entangled_symm_of_disjoint_entangles (ops : List Op)
    (h : (entIndices ops).Nodup) :
    Symm (run QMem.new ops).entangled ∧
    (∀ x y z, mapLookup (run QMem.new ops).entangled x = some y →
        mapLookup (run QMem.new ops).entangled x = some z → y = z) := by
  constructor
  · exact symm_run_aux ops QMem.new (fun x y hxy => by cases hxy) h (fun k _ => rfl)
  · exact fun x y z h1 h2 => Option.some.inj (h1.symm.trans h2)

/-- Witness for the amended C3: a single `entangle(0,1)` yields a
symmetric map, so looking up 1 gives back 0. -/
theorem entangled_symm_of_disjoint_entangles_witness :
    (entIndices [Op.entangleOp 0 1]).Nodup ∧
    mapLookup (run QMem.new [Op.entangleOp 0 1]).entangled 1 = some 0 :=
  ⟨by decide,
   (entangled_symm_of_disjoint_entangles [Op.entangleOp 0 1] (by decide)).1 0 1 (by decide)⟩

/-- C1: for distinct in-range qubits `a`, `b` both in superposition,
`entangle(a, b)` followed by `set_bit(a, Some v)` leaves `b` collapsed
(superposition bit 0) and every subsequent `measure(b)` returns `v`. -/
theorem entangle_then_set_forces_partner (q : QMem) (a b : Nat) (v : Bool)
    (hab : a ≠ b) (ha : a < 64) (hb : b < 64)
    (hsa : getBit q.superposition a = true) (hsb : getBit q.superposition b = true) :
    getBit (set_bit (entangle q a b) a (some v)).superposition b = false ∧
    (∀ r, (measure r (set_bit (entangle q a b) a (some v)) b).1 = v) := by
  have hni : ¬ 64 ≤ a := by omega
  have hE : (entangle q a b).entangled = (b, a) :: (a, b) :: q.entangled := by
    unfold entangle
    rw [if_pos hab]
  have hS : (entangle q a b).superposition = q.superposition := by
    unfold entangle
    rw [if_pos hab]
  have hp : mapLookup (entangle q a b).entangled a = some b := by
    rw [hE]
    show (if b = a then some a else if a = a then some b else mapLookup q.entangled a) = some b
    rw [if_neg (Ne.symm hab), if_pos rfl]
  have hsp1 : getBit (clearB (entangle q a b).superposition a) b = true := by
    rw [hS, getBit_clearB_ne _ _ _ hb hab, hsb]
  have hforce := collapse_forces_pair
    { entangle q a b with
        superposition := clearB (entangle q a b).superposition a,
        state := writeBit (entangle q a b).state a v }
    a v b hp hb hsp1
  have hQ2 : set_bit (entangle q a b) a (some v)
      = collapse_entangled_group
          { entangle q a b with
              superposition := clearB (entangle q a b).superposition a,
              state := writeBit (entangle q a b).state a v } a v := by
    unfold set_bit
    rw [if_neg hni]
  have h1 : getBit (set_bit (entangle q a b) a (some v)).superposition b = false := by
    rw [hQ2]
    exact hforce.1
  have h2 : getBit (set_bit (entangle q a b) a (some v)).state b = v := by
    rw [hQ2]
    exact hforce.2
  refine ⟨h1, fun r => ?_⟩
  rw [measure_not_superposed r _ b hb h1]
  exact h2

/-- Witness for C1, the spec's concrete scenario: fresh register,
`entangle(0, 63)`, `set_bit(0, Some true)`; qubit 63 is collapsed and
measures 1 under either random draw. -/
theorem entangle_then_set_forces_partner_witness :
    ((0 : Nat) ≠ 63 ∧ getBit QMem.new.superposition 0 = true ∧
      getBit QMem.new.superposition 63 = true) ∧
    getBit (set_bit (entangle QMem.new 0 63) 0 (some true)).superposition 63 = false ∧
    (measure false (set_bit (entangle QMem.new 0 63) 0 (some true)) 63).1 = true ∧
    (measure true (set_bit (entangle QMem.new 0 63) 0 (some true)) 63).1 = true := by
  have thm := entangle_then_set_forces_partner QMem.new 0 63 true (by omega) (by omega)
    (by omega) (by decide) (by decide)
  exact ⟨⟨by omega, by decide, by decide⟩, thm.1, thm.2 false, thm.2 true⟩

/-- C2: `entangle_group(indices)` with at least two indices stores, for
every member of the merged group, the same set, whose membership is the
union of the given indices with all their pre-existing groups. -/
theorem entangle_group_merges_union (q : QMem) (indices : List Nat)
    (h : 2 ≤ indices.length) :
    (∀ m, m ∈ buildGroup q.entangled_groups [] indices →
        groupsLookup (entangle_group q indices).entangled_groups m
          = some (buildGroup q.entangled_groups [] indices)) ∧
    (∀ x, x ∈ buildGroup q.entangled_groups [] indices ↔
        (x ∈ indices ∨
         ∃ i, i ∈ indices ∧ ∃ g, groupsLookup q.entangled_groups i = some g ∧ x ∈ g)) := by
  have hnl : ¬ indices.length < 2 := by omega
  constructor
  · intro m hm
    unfold entangle_group
    rw [if_neg hnl]
    dsimp only
    rw [groupsLookup_pushAll, if_pos hm]
  · intro x
    rw [mem_buildGroup]
    simp

/-- Witness for C2, the claim's concrete scenario: after
`entangle_group([3,4])` then `entangle_group([4,5])` on a fresh
register, qubit 3's stored group is the merged set containing 3, 4, 5. -/
theorem entangle_group_merges_union_witness :
    (2 ≤ ([4, 5] : List Nat).length ∧
     3 ∈ buildGroup (entangle_group QMem.new [3, 4]).entangled_groups [] [4, 5] ∧
     4 ∈ buildGroup (entangle_group QMem.new [3, 4]).entangled_groups [] [4, 5] ∧
     5 ∈ buildGroup (entangle_group QMem.new [3, 4]).entangled_groups [] [4, 5]) ∧
    groupsLookup (entangle_group (entangle_group QMem.new [3, 4]) [4, 5]).entangled_groups 3
      = some (buildGroup (entangle_group QMem.new [3, 4]).entangled_groups [] [4, 5]) :=
  ⟨⟨by decide, by decide, by decide, by decide⟩,
   (entangle_group_merges_union (entangle_group QMem.new [3, 4]) [4, 5] (by decide)).1 3
     (by decide)⟩

/-- Witness for C9: group `{0,1}`, qubit 1 collapsed to 0, then qubit 0
is set to 1; qubit 1 keeps its 0. -/
theorem set_bit_keeps_collapsed_partners_witness :
    ((1 : Nat) < 64 ∧ (1 : Nat) ≠ 0 ∧
      getBit (set_bit (entangle_group QMem.new [0, 1]) 1 (some false)).superposition 1
        = false) ∧
    (getBit (set_bit (set_bit (entangle_group QMem.new [0, 1]) 1 (some false)) 0
        (some true)).state 1
      = getBit (set_bit (entangle_group QMem.new [0, 1]) 1 (some false)).state 1 ∧
     getBit (set_bit (set_bit (entangle_group QMem.new [0, 1]) 1 (some false)) 0
        (some true)).superposition 1 = false) :=
  ⟨⟨by omega, by omega, by decide⟩,
   set_bit_keeps_collapsed_partners (set_bit (entangle_group QMem.new [0, 1]) 1 (some false))
     0 true 1 (by omega) (by omega) (by decide)⟩

/-- C4 counterexample: an operation given an out-of-range index does not
always leave the register unchanged: `cnot(0, 64)` on a fresh register
measures (and so collapses) in-range control 0 even though target 64 is
out of range, and no error is signalled. -/
theorem out_of_range_cnot_mutates :
    cnot true true QMem.new 0 64 ≠ QMem.new := by decide

/-- C4 amended: `set_bit` and `measure` given an index `≥ 64` leave the
register unchanged and signal nothing — `measure` just returns `false`
(silent no-op policy, not a reported error); `hadamard` and `pauli_x`
at an out-of-range index, and `cnot`/`swap` with both indices out of
range, also leave the register unchanged.  A gate given an out-of-range
index together with an in-range one may still mutate the in-range
qubit. -/
theorem out_of_range_ops_silent_noop (q : QMem) (i j : Nat) (v : Option Bool)
    (r r1 r2 : Bool) (hi : 64 ≤ i) (hj : 64 ≤ j) :
    set_bit q i v = q ∧
    measure r q i = (false, q) ∧
    hadamard q i = q ∧
    pauli_x r q i = q ∧
    cnot r1 r2 q i j = q ∧
    swap r1 r2 q i j = q := by
  have hsb : ∀ w, set_bit q i w = q := fun w => by
    unfold set_bit
    rw [if_pos hi]
  have hm : ∀ s, measure s q i = (false, q) := fun s => by
    unfold measure
    rw [if_pos hi]
  have hsbj : ∀ w, set_bit q j w = q := fun w => by
    unfold set_bit
    rw [if_pos hj]
  have hmj : ∀ s, measure s q j = (false, q) := fun s => by
    unfold measure
    rw [if_pos hj]
  refine ⟨hsb v, hm r, hsb none, ?_, ?_, ?_⟩
  · show set_bit (measure r q i).2 i (some (!(measure r q i).1)) = q
    rw [hm r]
    exact hsb _
  · show (if (measure r1 q i).1 then
            set_bit (measure r2 (measure r1 q i).2 j).2 j
              (some (!(measure r2 (measure r1 q i).2 j).1))
          else (measure r1 q i).2) = q
    rw [hm r1]
    rfl
  · unfold swap
    by_cases hij : i = j
    · rw [if_pos hij]
    · rw [if_neg hij]
      show set_bit (set_bit (measure r2 (measure r1 q i).2 j).2 i
              (some (measure r2 (measure r1 q i).2 j).1)) j
            (some (measure r1 q i).1) = q
      rw [hm r1]
      show set_bit (set_bit (measure r2 q j).2 i (some (measure r2 q j).1)) j
            (some false) = q
      rw [hmj r2]
      show set_bit (set_bit q i (some false)) j (some false) = q
      rw [hsb (some false)]
      exact hsbj (some false)

/-- Witness for the amended C4 at indices 64 and 65. -/
theorem out_of_range_ops_silent_noop_witness :
    (64 ≤ (64 : Nat) ∧ 64 ≤ (65 : Nat)) ∧
    (set_bit QMem.new 64 (some true) = QMem.new ∧
     measure true QMem.new 64 = (false, QMem.new) ∧
     hadamard QMem.new 64 = QMem.new ∧
     pauli_x true QMem.new 64 = QMem.new ∧
     cnot true true QMem.new 64 65 = QMem.new ∧
     swap true true QMem.new 64 65 = QMem.new) :=
  ⟨⟨by omega, by omega⟩,
   out_of_range_ops_silent_noop QMem.new 64 65 (some true) true true true
     (by omega) (by omega)⟩

/-- C7 counterexample: with qubits 0 and 1 entangled and both
superposed, `cnot(0, 1)` whose control draw is `false` still collapses
target 1 (its superposition bit drops from 1 to 0), because measuring
the control propagates the collapse to its entangled partner. -/
theorem cnot_false_control_touches_entangled_target :
    (measure false (entangle QMem.new 0 1) 0).1 = false ∧
    getBit (entangle QMem.new 0 1).superposition 1 = true ∧
    getBit (cnot false false (entangle QMem.new 0 1) 0 1).superposition 1 = false :=
  ⟨by decide, by decide, by decide⟩

/-- C7 amended: if the measurement of `control` returns `false`, `cnot`
performs no writes beyond that measurement — the post-call state equals
the post-measurement state — and if moreover `target` is distinct from
`control` and is neither `control`'s direct pair partner nor a member
of `control`'s entanglement group, `target`'s classical and
superposition bits are unchanged from before the call. -/
theorem cnot_false_control_frame (q : QMem) (r1 r2 : Bool) (control target : Nat)
    (hm : (measure r1 q control).1 = false)
    (ht : target < 64) (htc : target ≠ control)
    (hpair : ∀ p, mapLookup q.entangled control = some p → p ≠ target)
    (hgrp : ∀ g, groupsLookup q.entangled_groups control = some g →
        ∀ k, k ∈ g → k ≠ target) :
    cnot r1 r2 q control target = (measure r1 q control).2 ∧
    getBit (cnot r1 r2 q control target).state target = getBit q.state target ∧
    getBit (cnot r1 r2 q control target).superposition target
      = getBit q.superposition target := by
  have heq : cnot r1 r2 q control target = (measure r1 q control).2 := by
    show (if (measure r1 q control).1 then
            set_bit (measure r2 (measure r1 q control).2 target).2 target
              (some (!(measure r2 (measure r1 q control).2 target).1))
          else (measure r1 q control).2) = (measure r1 q control).2
    rw [hm]
    rfl
  have hframe : getBit (measure r1 q control).2.state target = getBit q.state target ∧
      getBit (measure r1 q control).2.superposition target
        = getBit q.superposition target := by
    by_cases hc64 : 64 ≤ control
    · unfold measure
      rw [if_pos hc64]
      exact ⟨rfl, rfl⟩
    · by_cases hsup : getBit q.superposition control = true
      · have hmeas : measure r1 q control = (r1, set_bit q control (some r1)) := by
          unfold measure
          rw [if_neg hc64, if_pos hsup]
        have hr1 : r1 = false := by
          rw [hmeas] at hm
          exact hm
        subst hr1
        rw [hmeas]
        exact set_bit_keeps_nonentangled q control false target ht htc hpair hgrp
      · have hmeas : measure r1 q control = (getBit q.state control, q) :=
          measure_not_superposed r1 q control (by omega) (by simpa using hsup)
        rw [hmeas]
        exact ⟨rfl, rfl⟩
  exact ⟨heq, heq ▸ hframe.1, heq ▸ hframe.2⟩

/-- Witness for the amended C7: fresh register (no entanglement),
control 0 drawn `false`; the call equals the bare control measurement
and target 1 is untouched. -/
theorem cnot_false_control_frame_witness :
    ((measure false QMem.new 0).1 = false ∧ (1 : Nat) < 64 ∧ (1 : Nat) ≠ 0) ∧
    (cnot false false QMem.new 0 1 = (measure false QMem.new 0).2 ∧
     getBit (cnot false false QMem.new 0 1).state 1 = getBit QMem.new.state 1 ∧
     getBit (cnot false false QMem.new 0 1).superposition 1
       = getBit QMem.new.superposition 1) :=
  ⟨⟨by decide, by omega, by omega⟩,
   cnot_false_control_frame QMem.new false false 0 1 (by decide) (by omega) (by omega)
     (fun p hp => Option.noConfusion hp) (fun g hg => Option.noConfusion hg)⟩

end QMemModel
